import Mathlib

/-!
Verification development for the filesystem aggregator `combine.py`.

The Python program walks a directory tree, decides per-entry inclusion with
gitignore-style rules (the `pathspec` library), reads the surviving files
concurrently, and reassembles them deterministically into one combined text
artifact together with a rendered directory tree.

This file gives a shallow embedding of that program:
  * strings are Lean `String`s, compared by code point exactly as Python
    compares `str` values (we work on `String.data` mapped to `Nat` code
    points so every comparison is a structurally recursive, kernel-evaluable
    function);
  * the filesystem is an inductive tree of named files (with raw byte
    content) and named directories;
  * the nondeterministic completion order of the thread pool is modelled as
    an arbitrary permutation of the canonical read-result list;
  * file paths are kept relative to the aggregation root: the Python code
    stores absolute paths and sorts by `str(path)`, but all candidate paths
    share the absolute-root text as a common prefix, so the relative-path
    order used here coincides with the absolute-path order; likewise the
    explicit-include set of `resolve()`d absolute paths is modelled by the
    corresponding root-relative path strings (resolution against one fixed
    root is injective; symbolic links are outside the model).
-/

/-! ## Code-point lists and lexicographic string comparison -/

/-- The code points of a string, as natural numbers.  Python compares
strings lexicographically by Unicode code point; this is the comparison
domain used throughout. -/
def charsOf (s : String) : List Nat := s.data.map Char.toNat

/-- Strict lexicographic order on code-point lists (Python `<` on `str`). -/
def listLTN : List Nat → List Nat → Bool
  | [], [] => false
  | [], _ :: _ => true
  | _ :: _, [] => false
  | a :: as, b :: bs => decide (a < b) || (a == b && listLTN as bs)

/-- Strict lexicographic order on strings by code point. -/
def strLT (a b : String) : Bool := listLTN (charsOf a) (charsOf b)

/-- Reflexive lexicographic order on strings by code point. -/
def strLE (a b : String) : Bool := strLT a b || a == b

theorem listLTN_irrefl (l : List Nat) : listLTN l l = false := by
  induction l with
  | nil => rfl
  | cons a as ih => simp [listLTN, ih]

theorem listLTN_trans {a b c : List Nat} (h₁ : listLTN a b = true)
    (h₂ : listLTN b c = true) : listLTN a c = true := by
  induction a generalizing b c with
  | nil =>
    cases b with
    | nil => simp [listLTN] at h₁
    | cons y ys =>
      cases c with
      | nil => simp [listLTN] at h₂
      | cons z zs => rfl
  | cons x xs ih =>
    cases b with
    | nil => simp [listLTN] at h₁
    | cons y ys =>
      cases c with
      | nil => simp [listLTN] at h₂
      | cons z zs =>
        simp only [listLTN, Bool.or_eq_true, Bool.and_eq_true,
          decide_eq_true_eq, beq_iff_eq] at h₁ h₂ ⊢
        rcases h₁ with h₁ | ⟨rfl, h₁⟩
        · rcases h₂ with h₂ | ⟨rfl, h₂⟩
          · exact Or.inl (Nat.lt_trans h₁ h₂)
          · exact Or.inl h₁
        · rcases h₂ with h₂ | ⟨rfl, h₂⟩
          · exact Or.inl h₂
          · exact Or.inr ⟨rfl, ih h₁ h₂⟩

theorem listLTN_connex {a b : List Nat} (h₁ : listLTN a b = false)
    (h₂ : listLTN b a = false) : a = b := by
  induction a generalizing b with
  | nil =>
    cases b with
    | nil => rfl
    | cons y ys => simp [listLTN] at h₁
  | cons x xs ih =>
    cases b with
    | nil => simp [listLTN] at h₂
    | cons y ys =>
      simp only [listLTN, Bool.or_eq_false_iff, Bool.and_eq_false_iff,
        decide_eq_false_iff_not, beq_eq_false_iff_ne, ne_eq] at h₁ h₂
      obtain ⟨hxy, h₁'⟩ := h₁
      obtain ⟨hyx, h₂'⟩ := h₂
      have hEq : x = y := Nat.le_antisymm (Nat.not_lt.mp hyx) (Nat.not_lt.mp hxy)
      subst hEq
      rcases h₁' with h₁' | h₁'
      · exact absurd rfl h₁'
      · rcases h₂' with h₂' | h₂'
        · exact absurd rfl h₂'
        · exact congrArg (x :: ·) (ih h₁' h₂')

theorem listLTN_asymm {a b : List Nat} (h₁ : listLTN a b = true) :
    listLTN b a = false := by
  by_contra h
  have h₂ : listLTN b a = true := by
    cases hba : listLTN b a with
    | false => exact absurd hba h
    | true => rfl
  have := listLTN_trans h₁ h₂
  rw [listLTN_irrefl] at this
  exact Bool.false_ne_true this

theorem charsOf_injective {a b : String} (h : charsOf a = charsOf b) : a = b := by
  have hdata : a.data = b.data := by
    have hinj : Function.Injective Char.toNat := by
      intro c d hcd
      exact Char.ext (UInt32.ext hcd)
    exact List.map_injective_iff.mpr hinj h
  cases a; cases b; exact congrArg String.mk hdata

theorem strLT_of_strLE_of_ne {a b : String} (hle : strLE a b = true)
    (hne : a ≠ b) : strLT a b = true := by
  rcases Bool.or_eq_true _ _ |>.mp hle with h | h
  · exact h
  · exact absurd (by simpa using h) hne

theorem strLE_total (a b : String) : strLE a b = true ∨ strLE b a = true := by
  by_cases hab : strLT a b = true
  · exact Or.inl (by simp [strLE, hab])
  · by_cases hba : strLT b a = true
    · exact Or.inr (by simp [strLE, hba])
    · have : a = b := charsOf_injective (listLTN_connex
        (by simpa [strLT] using hab) (by simpa [strLT] using hba))
      exact Or.inl (by simp [strLE, this])

theorem strLE_trans {a b c : String} (h₁ : strLE a b = true)
    (h₂ : strLE b c = true) : strLE a c = true := by
  simp only [strLE, Bool.or_eq_true, beq_iff_eq] at h₁ h₂ ⊢
  rcases h₁ with h₁ | rfl
  · rcases h₂ with h₂ | rfl
    · exact Or.inl (listLTN_trans h₁ h₂)
    · exact Or.inl h₁
  · exact h₂

theorem strLT_asymm {a b : String} (h : strLT a b = true) :
    strLT b a = false := listLTN_asymm h

/-! ## Small string helpers (structurally recursive replacements for the
position-based `String` library functions, so that concrete instances
evaluate inside the kernel) -/

/-- Join a list of strings with newline separators; `"\n".join` in Python,
used by `generate_tree_structure`. -/
def joinLines : List String → String
  | [] => ""
  | [s] => s
  | s :: rest => s ++ "\n" ++ joinLines rest

/-- Whether `p` is a prefix of `s` (by characters). -/
def strStartsWith (p s : String) : Bool := p.data.isPrefixOf s.data

/-- `path.rstrip("/")`: drop trailing slashes. -/
def rstripSlashes (s : String) : String :=
  String.mk ((s.data.reverse.dropWhile (fun c => c == '/')).reverse)

/-- ASCII lowercase on a code point (`str.lower()` restricted to ASCII,
which is all the sort-key model needs). -/
def lowerNat (n : Nat) : Nat := if 65 ≤ n && n ≤ 90 then n + 32 else n

/-- The case-folded code points of a string: the sort key `name.lower()`. -/
def lowerKey (s : String) : List Nat := (charsOf s).map lowerNat

/-! ## Pattern matching (the `pathspec` gitwildmatch dependency)

`combine.py` delegates pattern matching to the third-party `pathspec`
library (not part of this repository's sources).  Its semantics, per the
spec's interface section: one glob pattern per line, `*` matching within a
path segment, leading `!` negating, and `PathSpec.match_file` taking the
last matching pattern's polarity.  The glob matcher below is modelled from
the spec for patterns that contain no `/`: such a pattern matches a path
exactly when some complete `/`-separated segment of the path matches the
glob (pathspec compiles such a pattern to a regex of the shape
"(anything/)? pattern (/anything)?"). -/

/-- Fuel-driven glob matching of a pattern (char list, `*` wildcards
matching any character sequence, `?` not modelled) against a segment. -/
def globMatchF : Nat → List Char → List Char → Bool
  | 0, _, _ => false
  | _ + 1, [], [] => true
  | _ + 1, [], _ :: _ => false
  | f + 1, p :: ps, s =>
    if p == '*' then
      match s with
      | [] => globMatchF f ps []
      | c :: cs => globMatchF f ps (c :: cs) || globMatchF f ('*' :: ps) cs
    else
      match s with
      | [] => false
      | c :: cs => p == c && globMatchF f ps cs

/-- Glob matching with enough fuel (each step consumes a pattern or a
subject character, so `|p| + |s| + 1` suffices). -/
def globMatch (p s : List Char) : Bool := globMatchF (p.length + s.length + 1) p s

/-- Split a character list into its `/`-separated segments. -/
def splitSegs : List Char → List (List Char)
  | [] => [[]]
  | c :: rest =>
    if c == '/' then [] :: splitSegs rest
    else
      match splitSegs rest with
      | s :: tl => (c :: s) :: tl
      | [] => [[c]]

/-- Modelled from the spec: a slash-free gitwildmatch pattern (as compiled
by the `pathspec` dependency, which is outside `src/`) matches a path when
some complete path segment matches the glob. -/
def gitwildNoSlash (pat : String) (path : String) : Bool :=
  (splitSegs path.data).any (fun seg => globMatch pat.data seg)

/-- One compiled ignore pattern: a test on paths plus the polarity
(`patInclude = true` for a plain pattern that excludes matching paths,
`false` for a `!`-negated pattern that re-includes them), mirroring
`pathspec`'s `Pattern` objects. -/
structure GitPattern where
  test : String → Bool
  patInclude : Bool

/-- A `pathspec.PathSpec`: an ordered list of compiled patterns. -/
structure PathSpec where
  patterns : List GitPattern

/-- `pathspec`'s `match_file`: scan the patterns in order; the last
matching pattern's polarity wins; no match means not ignored. -/
def matchFile (ps : PathSpec) (path : String) : Bool :=
  ps.patterns.foldl (fun matched p => if p.test path then p.patInclude else matched) false

/-- Compile one pattern line: a leading `!` flips the polarity, the rest is
the glob (slash-free patterns modelled, per `gitwildNoSlash`). -/
def parsePattern (line : String) : GitPattern :=
  if strStartsWith "!" line then
    { test := gitwildNoSlash (String.mk (line.data.drop 1)), patInclude := false }
  else
    { test := gitwildNoSlash line, patInclude := true }

/-- Whether a stripped pattern line is kept by `load_combineignore`
(blank lines and `#` comments are dropped). -/
def keepLine (s : String) : Bool := !(s == "") && !(strStartsWith "#" s)

/-- `load_combineignore` on a list of raw lines already read from a rule
file: strip each line, drop blanks and comments, compile the rest in
order.  (Whitespace stripping is modelled as the identity on the pattern
text itself: the claims only use already-stripped lines.) -/
def loadLines (lines : List String) : PathSpec :=
  ⟨(lines.filter keepLine).map parsePattern⟩

/-- `combine_pathspecs`: global patterns first, target patterns appended,
preserving relative order. -/
def combine_pathspecs (globalSpec targetSpec : PathSpec) : PathSpec :=
  ⟨globalSpec.patterns ++ targetSpec.patterns⟩

/-! ## Exclusion decisions (`cached_should_exclude` and friends)

The decision cache of the Python code memoizes `(path, kind)` queries of a
pure function; the embedding is that pure function (the cache is
semantically transparent). -/

/-- `cached_should_exclude`: directories are matched with a trailing slash
appended (after stripping trailing slashes), files as-is. -/
def cached_should_exclude (path : String) (typeStr : String) (ps : PathSpec) : Bool :=
  if typeStr == "dir" then matchFile ps (rstripSlashes path ++ "/")
  else matchFile ps path

/-- `should_exclude_directory` on the directory's root-relative path.
(The Python wrapper also returns `True` when computing the relative path
raises; path computation is total in the model.) -/
def should_exclude_directory (relPath : String) (ps : PathSpec) : Bool :=
  cached_should_exclude relPath "dir" ps

/-- `should_exclude_file` on the file's root-relative path and byte size:
explicit inclusion wins first, then the size limit excludes, then the
pattern verdict decides.  (`file_path.resolve() in include_files` is
modelled by root-relative membership, and a `stat` failure — which the
Python code maps to `True` — is outside the model, where every modelled
file has a size.) -/
def should_exclude_file (relPath : String) (size : Nat) (include_files : List String)
    (ps : PathSpec) (max_file_size_kb : Nat) : Bool :=
  if relPath ∈ include_files then false
  else if size > max_file_size_kb * 1024 then true
  else cached_should_exclude relPath "file" ps

/-! ## Permissive UTF-8 decoding (`process_single_file`'s read)

`process_single_file` opens files with `encoding="utf-8"` and
`errors="ignore"`.  CPython's UTF-8 decoder processes the byte stream
sequence by sequence; on an invalid sequence the error handler is invoked
on the maximal subpart of the ill-formed sequence (at least the lead
byte), and decoding resumes after it.  With `errors="ignore"` the invalid
bytes contribute nothing; with `errors="replace"` each invalid subpart
contributes one U+FFFD replacement character.  `utf8DecodeWith` is the
common decoder, parameterized by what an invalid subpart contributes. -/

/-- Continuation byte test: `0x80 ≤ b ≤ 0xBF`. -/
def isCont (b : Nat) : Bool := 128 ≤ b && b ≤ 191

/-- Lower bound of the valid first continuation byte for a 3- or 4-byte
lead (`0xE0` and `0xF0` exclude overlong encodings). -/
def contLow (lead : Nat) : Nat :=
  if lead == 224 then 160 else if lead == 240 then 144 else 128

/-- Upper bound of the valid first continuation byte for a 3- or 4-byte
lead (`0xED` excludes surrogates, `0xF4` caps at U+10FFFF). -/
def contHigh (lead : Nat) : Nat :=
  if lead == 237 then 159 else if lead == 244 then 143 else 191

/-- Whether `c` is a valid first continuation byte after `lead`. -/
def validC1 (lead c : Nat) : Bool := contLow lead ≤ c && c ≤ contHigh lead

/-- UTF-8 decoding of a byte list into code points, emitting `repl` for
each maximal invalid subpart (CPython's incremental decoder behavior).
Fuel-driven so that concrete instances reduce in the kernel; every step
consumes at least one byte, so fuel `|bs|` always suffices (see
`utf8DecodeWith`). -/
def utf8DecodeF (repl : List Nat) : Nat → List Nat → List Nat
  | _, [] => []
  | 0, _ :: _ => []
  | f + 1, b :: rest =>
    if b < 128 then b :: utf8DecodeF repl f rest
    else if b < 194 then
      -- stray continuation byte or overlong two-byte lead 0xC0/0xC1
      repl ++ utf8DecodeF repl f rest
    else if b ≤ 223 then
      match rest with
      | [] => repl
      | c1 :: rest1 =>
        if isCont c1 then ((b - 192) * 64 + (c1 - 128)) :: utf8DecodeF repl f rest1
        else repl ++ utf8DecodeF repl f (c1 :: rest1)
    else if b ≤ 239 then
      match rest with
      | [] => repl
      | c1 :: rest1 =>
        if validC1 b c1 then
          match rest1 with
          | [] => repl
          | c2 :: rest2 =>
            if isCont c2 then
              ((b - 224) * 4096 + (c1 - 128) * 64 + (c2 - 128)) ::
                utf8DecodeF repl f rest2
            else repl ++ utf8DecodeF repl f (c2 :: rest2)
        else repl ++ utf8DecodeF repl f (c1 :: rest1)
    else if b ≤ 244 then
      match rest with
      | [] => repl
      | c1 :: rest1 =>
        if validC1 b c1 then
          match rest1 with
          | [] => repl
          | c2 :: rest2 =>
            if isCont c2 then
              match rest2 with
              | [] => repl
              | c3 :: rest3 =>
                if isCont c3 then
                  ((b - 240) * 262144 + (c1 - 128) * 4096 + (c2 - 128) * 64 +
                    (c3 - 128)) :: utf8DecodeF repl f rest3
                else repl ++ utf8DecodeF repl f (c3 :: rest3)
            else repl ++ utf8DecodeF repl f (c2 :: rest2)
        else repl ++ utf8DecodeF repl f (c1 :: rest1)
    else
      -- invalid lead byte 0xF5..0xFF
      repl ++ utf8DecodeF repl f rest

/-- UTF-8 decoding with adequate fuel. -/
def utf8DecodeWith (repl : List Nat) (bs : List Nat) : List Nat :=
  utf8DecodeF repl bs.length bs

/-- The decoder `process_single_file` actually uses: `errors="ignore"`,
invalid subparts contribute nothing. -/
def utf8DecodeIgnore (bs : List Nat) : List Nat := utf8DecodeWith [] bs

/-- The decoder the spec describes: `errors="replace"`, each invalid
subpart contributes the placeholder U+FFFD. -/
def utf8DecodeReplace (bs : List Nat) : List Nat := utf8DecodeWith [65533] bs

/-- Decoded text of a byte stream, as a string (valid scalar values by
`utf8DecodeIgnore_all_scalar` below, so `Char.ofNat` is faithful). -/
def decodeBytes (bs : List Nat) : String :=
  String.mk ((utf8DecodeIgnore bs).map Char.ofNat)

/-! ## The filesystem model

A directory tree with named files (raw byte content) and named
directories.  `st_size` of a file is its byte count.  Real filesystems
guarantee the well-formedness captured by `wfChildren` below: sibling
names are distinct, and names are nonempty and contain no separator. -/

/-- A file: its name and raw byte content (`st_size` = `bytes.length`). -/
structure FileMeta where
  name : String
  bytes : List Nat
deriving DecidableEq

/-- A filesystem entry: a file or a directory with children. -/
inductive FSEntry where
  | file : FileMeta → FSEntry
  | dir : String → List FSEntry → FSEntry

/-- The entry's name (`DirEntry.name`). -/
def entryName : FSEntry → String
  | .file m => m.name
  | .dir n _ => n

/-- The entry's kind (`DirEntry.is_dir()`). -/
def entryIsDir : FSEntry → Bool
  | .file _ => false
  | .dir _ _ => true

mutual
def sizeE : FSEntry → Nat
  | .file _ => 1
  | .dir _ cs => 1 + sizeL cs
def sizeL : List FSEntry → Nat
  | [] => 0
  | e :: rest => sizeE e + sizeL rest
end

/-- A name a real directory entry can carry: nonempty, no separator. -/
def validName (s : String) : Bool := !(s == "") && !(s.data.contains '/')

/-- Sibling names are pairwise distinct. -/
def namesNodupB : List FSEntry → Bool
  | [] => true
  | e :: rest => !((rest.map entryName).contains (entryName e)) && namesNodupB rest

mutual
/-- Entry well-formedness: valid names throughout, distinct siblings. -/
def wfEntry : FSEntry → Bool
  | .file m => validName m.name
  | .dir n cs => validName n && namesNodupB cs && wfAll cs
/-- Every entry of the list is well-formed. -/
def wfAll : List FSEntry → Bool
  | [] => true
  | e :: rest => wfEntry e && wfAll rest
end

/-- Children well-formedness: pairwise-distinct names, each entry wf. -/
def wfChildren (cs : List FSEntry) : Bool := namesNodupB cs && wfAll cs

/-! ## Sorting directory listings

Both `traverse_and_collect_files` and `generate_tree_structure` sort a
directory's entries by the key `(not entry.is_dir(), entry.name.lower())`
— directories first, then case-insensitive name order, tuples compared
lexicographically, with Python's stable sort.  `List.insertionSort` with
the reflexive key order is such a stable sort. -/

/-- The Python sort key `(not x.is_dir(), x.name.lower())`. -/
def entryKey (e : FSEntry) : Bool × List Nat := (!(entryIsDir e), lowerKey (entryName e))

/-- Python's `<=` on the sort-key tuples: lexicographic, `False < True`. -/
def keyLE (a b : Bool × List Nat) : Bool :=
  (!a.1 && b.1) || (a.1 == b.1 && (listLTN a.2 b.2 || a.2 == b.2))

/-- Ordering relation on entries used by `sorted(...)`. -/
def entryRel (a b : FSEntry) : Prop := keyLE (entryKey a) (entryKey b) = true

instance : DecidableRel entryRel := fun _ _ =>
  inferInstanceAs (Decidable (_ = true))

/-- `sorted(entries, key=lambda x: (not x.is_dir(), x.name.lower()))`. -/
def sortEntries (l : List FSEntry) : List FSEntry := List.insertionSort entryRel l

/-! ## Traversal (`traverse_and_collect_files`) -/

/-- `str(entry_path.relative_to(parent_dir))` for an entry named `name`
inside the directory whose root-relative path is `rel` (the root itself
has `rel = ""`). -/
def joinRel (rel name : String) : String :=
  if rel == "" then name else rel ++ "/" ++ name

/-- A candidate file produced by traversal: its root-relative path and
its metadata (the Python code stores the `Path`; content is read later). -/
structure Candidate where
  relPath : String
  meta : FileMeta
deriving DecidableEq

theorem sizeL_perm {l₁ l₂ : List FSEntry} (h : l₁.Perm l₂) : sizeL l₁ = sizeL l₂ := by
  have hs : ∀ l : List FSEntry, sizeL l = (l.map sizeE).sum := by
    intro l
    induction l with
    | nil => rfl
    | cons e rest ih => simp [sizeL, ih]
  rw [hs, hs]
  exact (h.map sizeE).sum_eq

theorem sizeE_pos (e : FSEntry) : 1 ≤ sizeE e := by
  cases e with
  | file m => exact Nat.le_refl 1
  | dir n cs => exact Nat.le_add_right 1 (sizeL cs)

theorem sizeL_sortEntries (l : List FSEntry) : sizeL (sortEntries l) = sizeL l :=
  sizeL_perm (List.perm_insertionSort entryRel l)

/-- The loop body of `traverse_and_collect_files` over an already-sorted
listing of the directory at root-relative path `rel`: excluded
directories are skipped wholesale, non-excluded directories are recursed
into (their children listed and sorted), surviving files are collected in
order. -/
def goTraverse (ps : PathSpec) (incl : List String) (maxKB : Nat) :
    String → List FSEntry → List Candidate
  | _, [] => []
  | rel, e :: rest =>
    (match e with
     | .dir name cs =>
       if should_exclude_directory (joinRel rel name) ps then []
       else goTraverse ps incl maxKB (joinRel rel name) (sortEntries cs)
     | .file m =>
       if should_exclude_file (joinRel rel m.name) m.bytes.length incl ps maxKB then []
       else [⟨joinRel rel m.name, m⟩])
    ++ goTraverse ps incl maxKB rel rest
termination_by rel l => sizeL l
decreasing_by
  · calc sizeL (sortEntries cs) = sizeL cs := sizeL_sortEntries cs
      _ < sizeE (FSEntry.dir name cs) + sizeL rest := by
          simp [sizeE]; omega
  · have := sizeE_pos e
    simp [sizeL]; omega

/-- `traverse_and_collect_files(parent_dir, parent_dir, ...)`: scan the
root's children, sort them, and run the collection loop. -/
def traverse_and_collect_files (ps : PathSpec) (incl : List String) (maxKB : Nat)
    (rootChildren : List FSEntry) : List Candidate :=
  goTraverse ps incl maxKB "" (sortEntries rootChildren)

/-! ## Tree rendering (`generate_tree_structure`) -/

/-- `sys.maxsize` on the 64-bit platform the program targets: the size
limit `generate_tree_structure` passes to `should_exclude_file`. -/
def SYSMAXSIZE : Nat := 2 ^ 63 - 1

/-- The `└── ` connector for the entry at the last raw index. -/
def lastConn : String := "└── "

/-- The `├── ` connector for entries at non-last raw indices. -/
def midConn : String := "├── "

/-- The `│   ` continuation used below a non-last directory. -/
def contPref : String := "│   "

/-- The four-space continuation used below a last directory. -/
def spacePref : String := "    "

/-- The `for i, entry in enumerate(entries)` loop of
`generate_tree_structure`, producing the `output` list: `total` is
`len(entries)`, `i` the current raw index (excluded entries are skipped
by `continue` but still occupy their index), `pref` the accumulated
drawing indentation and `rel` the directory's root-relative path.  A
non-excluded directory contributes its own line and, when non-empty, its
rendered subtree as one further element; a non-excluded file contributes
its line; the file test is made with the size limit `sys.maxsize`. -/
def genTreeGo (ps : PathSpec) (incl : List String) (pref : String) :
    String → Nat → Nat → List FSEntry → List String
  | _, _, _, [] => []
  | rel, total, i, e :: rest =>
    (match e with
     | .dir name cs =>
       if should_exclude_directory (joinRel rel name) ps then []
       else
         let connector := if i == total - 1 then lastConn else midConn
         let extn := if i == total - 1 then spacePref else contPref
         let subtree := joinLines (genTreeGo ps incl (pref ++ extn) (joinRel rel name)
           (sortEntries cs).length 0 (sortEntries cs))
         if subtree == "" then [pref ++ connector ++ name]
         else [pref ++ connector ++ name, subtree]
     | .file m =>
       if should_exclude_file (joinRel rel m.name) m.bytes.length incl ps SYSMAXSIZE then []
       else
         let connector := if i == total - 1 then lastConn else midConn
         [pref ++ connector ++ m.name])
    ++ genTreeGo ps incl pref rel total (i + 1) rest
termination_by rel total i l => sizeL l
decreasing_by
  · calc sizeL (sortEntries cs) = sizeL cs := sizeL_sortEntries cs
      _ < sizeE (FSEntry.dir name cs) + sizeL rest := by
          simp [sizeE]; omega
  · have := sizeE_pos e
    simp [sizeL]; omega

/-- `generate_tree_structure(directory, parent_dir, ...)` for the
directory whose root-relative path is `rel` and whose raw listing is
`children`: sort, enumerate, and join the produced lines with newlines. -/
def generate_tree_structure (ps : PathSpec) (incl : List String) (pref rel : String)
    (children : List FSEntry) : String :=
  joinLines (genTreeGo ps incl pref rel (sortEntries children).length 0
    (sortEntries children))

/-- The set (ordered list) of files that receive a line in
`genTreeGo`: same recursion, same guards in the same order — an excluded
directory contributes nothing, a non-excluded directory contributes its
subtree's files, a file contributes its root-relative path exactly when
`genTreeGo` appends its line (the connector bookkeeping, which does not
affect which entries are rendered, is dropped). -/
def treeFilesGo (ps : PathSpec) (incl : List String) :
    String → List FSEntry → List String
  | _, [] => []
  | rel, e :: rest =>
    (match e with
     | .dir name cs =>
       if should_exclude_directory (joinRel rel name) ps then []
       else treeFilesGo ps incl (joinRel rel name) (sortEntries cs)
     | .file m =>
       if should_exclude_file (joinRel rel m.name) m.bytes.length incl ps SYSMAXSIZE then []
       else [joinRel rel m.name])
    ++ treeFilesGo ps incl rel rest
termination_by rel l => sizeL l
decreasing_by
  · calc sizeL (sortEntries cs) = sizeL cs := sizeL_sortEntries cs
      _ < sizeE (FSEntry.dir name cs) + sizeL rest := by
          simp [sizeE]; omega
  · have := sizeE_pos e
    simp [sizeL]; omega

/-- The files rendered in the tree of the whole root. -/
def treeFiles (ps : PathSpec) (incl : List String) (rootChildren : List FSEntry) :
    List String :=
  treeFilesGo ps incl "" (sortEntries rootChildren)

/-! ## Reading and assembling (`process_single_file`, `main`) -/

/-- The `# ----...---- #` separator line of `process_single_file`. -/
def separator_line : String := "# " ++ String.mk (List.replicate 62 '-') ++ " #"

/-- `process_single_file` on a successful read: the header naming the
file's root-relative path followed by its permissively decoded content. -/
def process_single_file (relPath : String) (bs : List Nat) : String :=
  "\n\n" ++ separator_line ++ "\n" ++ "# Source: " ++ relPath ++ " \n\n" ++
    decodeBytes bs

/-- The canonical read results: each candidate paired with its rendered
block, tagged by its path (the thread pool produces exactly these pairs,
in an arbitrary completion order). -/
def readAll (cands : List Candidate) : List (String × String) :=
  cands.map (fun c => (c.relPath, process_single_file c.relPath c.meta.bytes))

/-- Key order of `combined_contents.sort(key=lambda x: str(x[0]))`. -/
def resultLE (x y : String × String) : Prop := strLE x.1 y.1 = true

instance : DecidableRel resultLE := fun _ _ =>
  inferInstanceAs (Decidable (_ = true))

/-- `combined_contents.sort(key=lambda x: str(x[0]))`: a stable sort by
the path key (the model keys by root-relative path; the Python code keys
by absolute path, which shares the root as a common prefix and therefore
induces the same order). -/
def sortByPath (l : List (String × String)) : List (String × String) :=
  List.insertionSort resultLE l

/-- The bytes of the combined artifact: the tree text (root line plus
rendering, as written first to the tree file and then prepended), one
blank separator line, then every block in sorted order. -/
def finalArtifact (rootDisplay treeText : String) (results : List (String × String)) :
    String :=
  rootDisplay ++ "\n" ++ treeText ++ "\n\n" ++
    String.join ((sortByPath results).map (fun x => x.2))

/-! ## `main`'s error-handling skeleton

Exceptions and process exit cannot be carried by pure values directly, so
`main`'s control flow around them is modelled explicitly: each boolean of
`MainEnv` records whether the corresponding fallible operation raises
when attempted.  The structure mirrors `main`: the clean-up loop over
`[output_file, tree_file]` exits with status 1 when an existing file
cannot be removed; everything from traversal to the final preview —
including opening the two output files for writing — sits inside one
`try` whose handler logs and falls through to the `finally` that reports
completion. -/

/-- Which fallible operations of one run raise. -/
structure MainEnv where
  removeOutputFails : Bool
  removeTreeFails : Bool
  openOutputFails : Bool
  openTreeFails : Bool
  processingFails : Bool
deriving DecidableEq

/-- How a run ends: an abort via `sys.exit(code)`, or normal completion
(`errorLogged` records whether the top-level handler caught something on
the way). -/
inductive RunOutcome where
  | fatalExit : Nat → RunOutcome
  | completed : Bool → RunOutcome
deriving DecidableEq

/-- `main`'s outcome as a function of which operations raise. -/
def mainControl (e : MainEnv) : RunOutcome :=
  if e.removeOutputFails then .fatalExit 1
  else if e.removeTreeFails then .fatalExit 1
  else .completed (e.openOutputFails || e.openTreeFails || e.processingFails)

/-! ## Helper lemmas shared by the override and pruning claims -/

theorem should_exclude_file_of_mem {relPath : String} {size : Nat}
    {incl : List String} {ps : PathSpec} {maxKB : Nat} (h : relPath ∈ incl) :
    should_exclude_file relPath size incl ps maxKB = false := by
  simp [should_exclude_file, h]

theorem goTraverse_dir_excluded (ps : PathSpec) (incl : List String) (maxKB : Nat)
    (rel name : String) (cs rest : List FSEntry)
    (hd : should_exclude_directory (joinRel rel name) ps = true) :
    goTraverse ps incl maxKB rel (.dir name cs :: rest) =
      goTraverse ps incl maxKB rel rest := by
  simp [goTraverse, hd]

theorem genTreeGo_dir_excluded (ps : PathSpec) (incl : List String)
    (pref rel : String) (total i : Nat) (name : String) (cs rest : List FSEntry)
    (hd : should_exclude_directory (joinRel rel name) ps = true) :
    genTreeGo ps incl pref rel total i (.dir name cs :: rest) =
      genTreeGo ps incl pref rel total (i + 1) rest := by
  simp [genTreeGo, hd]

/-! ## Claim C3 -/

/-- Claim C3: override supremacy — for every file whose path is in the
explicit-include set, `should_exclude_file` returns `false`, whatever the
rule set and however large the file: the membership test short-circuits
both the size check and the pattern check. -/
theorem claim_C3_override_supremacy (relPath : String) (size : Nat)
    (incl : List String) (ps : PathSpec) (maxKB : Nat) (h : relPath ∈ incl) :
    should_exclude_file relPath size incl ps maxKB = false :=
  should_exclude_file_of_mem h

/-- Witness for C3: `big.log` matches the exclude pattern `*.log` and its
2048 bytes exceed the 1 KB limit, yet explicit inclusion keeps it. -/
theorem claim_C3_witness :
    "big.log" ∈ ["big.log"] ∧
      should_exclude_file "big.log" 2048 ["big.log"] (loadLines ["*.log"]) 1 = false :=
  ⟨by decide, claim_C3_override_supremacy "big.log" 2048 ["big.log"]
    (loadLines ["*.log"]) 1 (by decide)⟩

/-! ## Claim C4 -/

/-- Claim C4: rule precedence is last-match-wins with global rules before
target rules — with global `*.log` and target `!important.log` combined by
`combine_pathspecs`, `important.log` is not excluded while `other.log`
is. -/
theorem claim_C4_precedence :
    should_exclude_file "important.log" 0 []
        (combine_pathspecs (loadLines ["*.log"]) (loadLines ["!important.log"]))
        10240 = false ∧
      should_exclude_file "other.log" 0 []
        (combine_pathspecs (loadLines ["*.log"]) (loadLines ["!important.log"]))
        10240 = true := by
  decide

/-! ## Claim C5 -/

/-- Claim C5: directory pruning — when a directory is judged excluded,
the traversal loop and the tree-rendering loop both skip it wholesale:
the result is as if the directory were absent (in the renderer the raw
index is still consumed), for every content `cs` of the pruned directory.
Hence no descendant appears in the candidate list or in the rendered
tree, and — since the result does not depend on `cs` at all — no
descendant is ever individually tested against the rules. -/
theorem claim_C5_directory_pruning (ps : PathSpec) (incl : List String)
    (maxKB : Nat) (pref rel name : String) (total i : Nat)
    (cs rest : List FSEntry)
    (hd : should_exclude_directory (joinRel rel name) ps = true) :
    goTraverse ps incl maxKB rel (.dir name cs :: rest) =
        goTraverse ps incl maxKB rel rest ∧
      genTreeGo ps incl pref rel total i (.dir name cs :: rest) =
        genTreeGo ps incl pref rel total (i + 1) rest :=
  ⟨goTraverse_dir_excluded ps incl maxKB rel name cs rest hd,
   genTreeGo_dir_excluded ps incl pref rel total i name cs rest hd⟩

/-- Witness for C5 at a concrete filesystem: the rule `sub` excludes the
directory `sub`, so traversal and rendering of a listing containing it
equal those of the listing without it. -/
theorem claim_C5_witness :
    should_exclude_directory (joinRel "" "sub") (loadLines ["sub"]) = true ∧
      (goTraverse (loadLines ["sub"]) [] 10240 ""
          [.dir "sub" [.file ⟨"x.txt", []⟩], .file ⟨"a.txt", []⟩] =
          goTraverse (loadLines ["sub"]) [] 10240 "" [.file ⟨"a.txt", []⟩] ∧
        genTreeGo (loadLines ["sub"]) [] "" "" 2 0
          [.dir "sub" [.file ⟨"x.txt", []⟩], .file ⟨"a.txt", []⟩] =
          genTreeGo (loadLines ["sub"]) [] "" "" 2 (0 + 1) [.file ⟨"a.txt", []⟩]) :=
  ⟨by decide, claim_C5_directory_pruning (loadLines ["sub"]) [] 10240 "" "" "sub"
    2 0 [.file ⟨"x.txt", []⟩] [.file ⟨"a.txt", []⟩] (by decide)⟩

/-! ## Claim C9 -/

/-- Claim C9 (implicit): pruning dominates the override set — a file in
the explicit-include set that lies under an excluded directory is never
reached: the directory is skipped before any per-file check runs, so
traversal and rendering coincide with the directory absent, even though
the file itself, had it been tested, would have been kept by the override
(first conjunct). -/
theorem claim_C9_pruning_dominates_override (ps : PathSpec) (incl : List String)
    (maxKB : Nat) (pref rel name : String) (total i : Nat) (m : FileMeta)
    (cs rest : List FSEntry)
    (hd : should_exclude_directory (joinRel rel name) ps = true)
    (hm : joinRel (joinRel rel name) m.name ∈ incl) :
    should_exclude_file (joinRel (joinRel rel name) m.name) m.bytes.length incl ps
        maxKB = false ∧
      goTraverse ps incl maxKB rel (.dir name (.file m :: cs) :: rest) =
        goTraverse ps incl maxKB rel rest ∧
      genTreeGo ps incl pref rel total i (.dir name (.file m :: cs) :: rest) =
        genTreeGo ps incl pref rel total (i + 1) rest :=
  ⟨should_exclude_file_of_mem hm,
   goTraverse_dir_excluded ps incl maxKB rel name (.file m :: cs) rest hd,
   genTreeGo_dir_excluded ps incl pref rel total i name (.file m :: cs) rest hd⟩

/-- Witness for C9: `sub/wanted.txt` is explicitly included, but the rule
`sub` prunes the directory `sub`, so the file never reaches the candidate
list or the tree. -/
theorem claim_C9_witness :
    should_exclude_directory (joinRel "" "sub") (loadLines ["sub"]) = true ∧
      joinRel (joinRel "" "sub") "wanted.txt" ∈ ["sub/wanted.txt"] ∧
      (should_exclude_file (joinRel (joinRel "" "sub") "wanted.txt") 0
          ["sub/wanted.txt"] (loadLines ["sub"]) 10240 = false ∧
        goTraverse (loadLines ["sub"]) ["sub/wanted.txt"] 10240 ""
          [.dir "sub" [.file ⟨"wanted.txt", []⟩], .file ⟨"a.txt", []⟩] =
          goTraverse (loadLines ["sub"]) ["sub/wanted.txt"] 10240 ""
            [.file ⟨"a.txt", []⟩] ∧
        genTreeGo (loadLines ["sub"]) ["sub/wanted.txt"] "" "" 2 0
          [.dir "sub" [.file ⟨"wanted.txt", []⟩], .file ⟨"a.txt", []⟩] =
          genTreeGo (loadLines ["sub"]) ["sub/wanted.txt"] "" "" 2 (0 + 1)
            [.file ⟨"a.txt", []⟩]) :=
  ⟨by decide, by decide,
   claim_C9_pruning_dominates_override (loadLines ["sub"]) ["sub/wanted.txt"]
     10240 "" "" "sub" 2 0 ⟨"wanted.txt", []⟩ [] [.file ⟨"a.txt", []⟩]
     (by decide) (by decide)⟩

/-! ## Claim C7 -/

/-- Counterexample for C7 as stated: a run where opening the destination
output file for writing raises — and nothing else fails — does not abort:
the exception is caught by `main`'s top-level handler, and the run
completes and reports (the outcome is `completed`, a different
constructor from the `fatalExit` the claim requires). -/
theorem claim_C7_counterexample :
    mainControl ⟨false, false, true, false, false⟩ = RunOutcome.completed true ∧
      RunOutcome.completed true ≠ RunOutcome.fatalExit 1 := by
  decide

/-- Claim C7 as amended: failing to remove an existing stale output (or
tree) file is the only fatal path, exiting with status 1; every other
failure — including failure to open the destination for writing — is
caught, and the run still reports completion. -/
theorem claim_C7_output_errors (e : MainEnv) :
    (mainControl e = RunOutcome.fatalExit 1 ↔
        (e.removeOutputFails || e.removeTreeFails) = true) ∧
      ((e.removeOutputFails || e.removeTreeFails) = false →
        mainControl e = RunOutcome.completed
          (e.openOutputFails || e.openTreeFails || e.processingFails)) := by
  obtain ⟨a, b, c, d, g⟩ := e
  cases a <;> cases b <;> cases c <;> cases d <;> cases g <;> simp [mainControl]

/-- Witness for C7: a run that cannot remove the stale combined output
exits fatally with status 1. -/
theorem claim_C7_witness :
    mainControl ⟨true, false, false, false, false⟩ = RunOutcome.fatalExit 1 :=
  (claim_C7_output_errors ⟨true, false, false, false, false⟩).1.mpr (by decide)

/-! ## Claim C8 -/

/-- A valid Unicode scalar value: below `0x110000` and not a surrogate. -/
def isScalar (c : Nat) : Bool :=
  decide (c < 1114112) && !(decide (55296 ≤ c) && decide (c ≤ 57343))

set_option maxRecDepth 8192 in
theorem utf8DecodeF_ignore_scalar (f : Nat) :
    ∀ bs : List Nat, ((utf8DecodeF [] f bs).all isScalar) = true := by
  induction f with
  | zero => intro bs; cases bs <;> rfl
  | succ f ih =>
    intro bs
    match bs with
    | [] => rfl
    | [b] =>
      simp only [utf8DecodeF]
      split_ifs <;>
      first
        | rfl
        | (simp only [List.nil_append]; exact ih _)
        | (simp only [List.all_cons, Bool.and_eq_true]
           constructor
           · simp only [isScalar, Bool.and_eq_true, Bool.not_eq_true',
               Bool.and_eq_false_iff, decide_eq_true_eq, decide_eq_false_iff_not]
             try simp only [isCont, validC1, contLow, contHigh, Bool.and_eq_true,
               decide_eq_true_eq, beq_iff_eq] at *
             try split_ifs at *
             all_goals omega
           · first | rfl | exact ih _)
    | [b, c1] =>
      simp only [utf8DecodeF]
      split_ifs <;>
      first
        | rfl
        | (simp only [List.nil_append]; exact ih _)
        | (simp only [List.all_cons, Bool.and_eq_true]
           constructor
           · simp only [isScalar, Bool.and_eq_true, Bool.not_eq_true',
               Bool.and_eq_false_iff, decide_eq_true_eq, decide_eq_false_iff_not]
             try simp only [isCont, validC1, contLow, contHigh, Bool.and_eq_true,
               decide_eq_true_eq, beq_iff_eq] at *
             try split_ifs at *
             all_goals omega
           · first | rfl | exact ih _)
    | [b, c1, c2] =>
      simp only [utf8DecodeF]
      split_ifs <;>
      first
        | rfl
        | (simp only [List.nil_append]; exact ih _)
        | (simp only [List.all_cons, Bool.and_eq_true]
           constructor
           · simp only [isScalar, Bool.and_eq_true, Bool.not_eq_true',
               Bool.and_eq_false_iff, decide_eq_true_eq, decide_eq_false_iff_not]
             try simp only [isCont, validC1, contLow, contHigh, Bool.and_eq_true,
               decide_eq_true_eq, beq_iff_eq] at *
             try split_ifs at *
             all_goals omega
           · first | rfl | exact ih _)
    | b :: c1 :: c2 :: c3 :: rest3 =>
      simp only [utf8DecodeF]
      split_ifs <;>
      first
        | rfl
        | (simp only [List.nil_append]; exact ih _)
        | (simp only [List.all_cons, Bool.and_eq_true]
           constructor
           · simp only [isScalar, Bool.and_eq_true, Bool.not_eq_true',
               Bool.and_eq_false_iff, decide_eq_true_eq, decide_eq_false_iff_not]
             try simp only [isCont, validC1, contLow, contHigh, Bool.and_eq_true,
               decide_eq_true_eq, beq_iff_eq] at *
             try split_ifs at *
             all_goals omega
           · first | rfl | exact ih _)

/-- Counterexample for C8 as stated: on the undecodable byte `0xFF`, the
decoder `process_single_file` uses (`errors="ignore"`) produces nothing —
no placeholder is substituted — while the placeholder-substituting
decoder the claim describes (`errors="replace"`) produces U+FFFD; the two
disagree. -/
theorem claim_C8_counterexample :
    utf8DecodeIgnore [255] = [] ∧ utf8DecodeReplace [255] = [65533] ∧
      utf8DecodeIgnore [255] ≠ utf8DecodeReplace [255] := by
  decide

/-- Claim C8 as amended: reading decodes the byte stream permissively
with `errors="ignore"`, discarding (rather than replacing with a
placeholder) each undecodable byte sequence instead of failing the whole
read, so the returned text is defined — a sequence of valid Unicode
scalar values — for arbitrary byte content. -/
theorem claim_C8_permissive_decoding (bs : List Nat) :
    ((utf8DecodeIgnore bs).all isScalar) = true :=
  utf8DecodeF_ignore_scalar bs.length bs

/-! ## Claim C6: tree and walker consistency

`generate_tree_structure` mirrors `traverse_and_collect_files`' sort and
exclusion logic except for one point: it calls `should_exclude_file` with
`sys.maxsize` as the size limit, so the configured limit does not apply
to the tree.  The sets therefore agree exactly when no file's size
exceeds the configured limit. -/
mutual
/-- Every file in the entry has size within `bound` bytes. -/
def sizesOKE (bound : Nat) : FSEntry → Bool
  | .file m => decide (m.bytes.length ≤ bound)
  | .dir _ cs => sizesOKL bound cs
/-- Every file below the listing has size within `bound` bytes. -/
def sizesOKL (bound : Nat) : List FSEntry → Bool
  | [] => true
  | e :: rest => sizesOKE bound e && sizesOKL bound rest
end

theorem sizesOKL_iff_forall {bound : Nat} {l : List FSEntry} :
    sizesOKL bound l = true ↔ ∀ e ∈ l, sizesOKE bound e = true := by
  induction l with
  | nil => simp [sizesOKL]
  | cons e rest ih => simp [sizesOKL, ih]

theorem sizesOKL_perm {bound : Nat} {l₁ l₂ : List FSEntry} (h : l₁.Perm l₂)
    (hs : sizesOKL bound l₁ = true) : sizesOKL bound l₂ = true := by
  rw [sizesOKL_iff_forall] at hs ⊢
  intro e he
  exact hs e (h.mem_iff.mpr he)

theorem should_exclude_file_size_irrelevant {relPath : String} {sz : Nat}
    {incl : List String} {ps : PathSpec} {maxKB : Nat}
    (h1 : sz ≤ maxKB * 1024) (h2 : maxKB ≤ SYSMAXSIZE) :
    should_exclude_file relPath sz incl ps maxKB =
      should_exclude_file relPath sz incl ps SYSMAXSIZE := by
  unfold should_exclude_file
  have hA : ¬ sz > maxKB * 1024 := by omega
  have hB : ¬ sz > SYSMAXSIZE * 1024 := by
    have := Nat.mul_le_mul_right 1024 h2
    omega
  simp [hA, hB]

theorem treeFilesGo_eq_map_goTraverse (ps : PathSpec) (incl : List String)
    (maxKB : Nat) (hb : maxKB ≤ SYSMAXSIZE) :
    ∀ (rel : String) (l : List FSEntry), sizesOKL (maxKB * 1024) l = true →
      treeFilesGo ps incl rel l =
        (goTraverse ps incl maxKB rel l).map (fun c => c.relPath) := by
  intro rel l
  induction rel, l using treeFilesGo.induct ps incl with
  | case1 rel => intro _; simp [treeFilesGo, goTraverse]
  | case2 rel e rest ihe ihrest =>
    intro hs
    rw [sizesOKL] at hs
    simp only [Bool.and_eq_true] at hs
    cases e with
    | dir name cs =>
      have ihsub : sizesOKL (maxKB * 1024) (sortEntries cs) = true →
          treeFilesGo ps incl (joinRel rel name) (sortEntries cs) =
            (goTraverse ps incl maxKB (joinRel rel name) (sortEntries cs)).map
              (fun c => c.relPath) := ihe
      have hcs : sizesOKL (maxKB * 1024) (sortEntries cs) = true :=
        sizesOKL_perm (List.perm_insertionSort entryRel cs).symm
          (by simpa [sizesOKE] using hs.1)
      by_cases hd : should_exclude_directory (joinRel rel name) ps = true
      · simp [treeFilesGo, goTraverse, hd, ihrest hs.2]
      · simp only [Bool.not_eq_true] at hd
        simp [treeFilesGo, goTraverse, hd, ihsub hcs, ihrest hs.2]
    | file m =>
      have hsz : m.bytes.length ≤ maxKB * 1024 := by
        simpa [sizesOKE] using hs.1
      have hrw := @should_exclude_file_size_irrelevant (joinRel rel m.name)
        m.bytes.length incl ps maxKB hsz hb
      by_cases he : should_exclude_file (joinRel rel m.name) m.bytes.length incl ps
          maxKB = true
      · simp [treeFilesGo, goTraverse, he, ← hrw, ihrest hs.2]
      · simp only [Bool.not_eq_true] at he
        simp [treeFilesGo, goTraverse, he, ← hrw, ihrest hs.2]

/-- Counterexample for C6 as stated: with a 2-byte file `big.txt` and a
configured limit of 0 KB (and no patterns at all), the walker excludes
the file by size while the tree — whose size limit is `sys.maxsize` —
still renders it, so the two file sets differ. -/
theorem claim_C6_counterexample :
    treeFiles ⟨[]⟩ [] [.file ⟨"big.txt", [65, 66]⟩] = ["big.txt"] ∧
      traverse_and_collect_files ⟨[]⟩ [] 0 [.file ⟨"big.txt", [65, 66]⟩] = [] ∧
      treeFiles ⟨[]⟩ [] [.file ⟨"big.txt", [65, 66]⟩] ≠
        (traverse_and_collect_files ⟨[]⟩ [] 0
          [.file ⟨"big.txt", [65, 66]⟩]).map (fun c => c.relPath) := by
  refine ⟨?_, ?_, ?_⟩ <;>
    simp +decide [treeFiles, treeFilesGo, traverse_and_collect_files, goTraverse,
      sortEntries, should_exclude_file, cached_should_exclude, matchFile,
      SYSMAXSIZE, joinRel]

/-- Claim C6 as amended: the renderer mirrors the walker's sort and
exclusion logic, except that it disables the size limit (it passes
`sys.maxsize`); consequently, for every root, rule set and include set,
the set of files rendered in the tree equals the candidate set collected
by traversal whenever every file's size is within the configured limit
(which itself is at most `sys.maxsize`). -/
theorem claim_C6_tree_walker_consistency (ps : PathSpec) (incl : List String)
    (maxKB : Nat) (rootChildren : List FSEntry)
    (hs : sizesOKL (maxKB * 1024) rootChildren = true)
    (hb : maxKB ≤ SYSMAXSIZE) :
    treeFiles ps incl rootChildren =
      (traverse_and_collect_files ps incl maxKB rootChildren).map
        (fun c => c.relPath) :=
  treeFilesGo_eq_map_goTraverse ps incl maxKB hb "" (sortEntries rootChildren)
    (sizesOKL_perm (List.perm_insertionSort entryRel rootChildren).symm hs)

/-- Witness for C6: a 1-byte file within a 1 KB limit is rendered and
collected alike. -/
theorem claim_C6_witness :
    sizesOKL (1 * 1024) [.file ⟨"a.txt", [65]⟩] = true ∧ 1 ≤ SYSMAXSIZE ∧
      treeFiles ⟨[]⟩ [] [.file ⟨"a.txt", [65]⟩] =
        (traverse_and_collect_files ⟨[]⟩ [] 1 [.file ⟨"a.txt", [65]⟩]).map
          (fun c => c.relPath) :=
  ⟨by decide, by decide,
   claim_C6_tree_walker_consistency ⟨[]⟩ [] 1 [.file ⟨"a.txt", [65]⟩]
     (by decide) (by decide)⟩

/-! ## Claim C10: connector assignment under exclusion

`generate_tree_structure` computes `is_last_entry` from the raw index of
the sorted-but-unfiltered listing, and an excluded entry is skipped by
`continue` after the index is consumed; the lemmas below make the
resulting connector discipline precise. -/
theorem isPrefixOf_append_self (A B : List Char) : A.isPrefixOf (A ++ B) = true := by
  induction A with
  | nil => simp [List.isPrefixOf]
  | cons a as ih => simpa [List.isPrefixOf] using ih

theorem isPrefixOf_append_right {A S : List Char} (h : A.isPrefixOf S = true)
    (T : List Char) : A.isPrefixOf (S ++ T) = true := by
  induction A generalizing S with
  | nil => simp [List.isPrefixOf]
  | cons a as ih =>
    cases S with
    | nil => simp [List.isPrefixOf] at h
    | cons c S' =>
      simp only [List.isPrefixOf, Bool.and_eq_true] at h
      simp only [List.cons_append, List.isPrefixOf, Bool.and_eq_true]
      exact ⟨h.1, ih h.2⟩

theorem isPrefixOf_of_append_isPrefixOf {A B S : List Char}
    (h : (A ++ B).isPrefixOf S = true) : A.isPrefixOf S = true := by
  induction A generalizing S with
  | nil => simp [List.isPrefixOf]
  | cons a as ih =>
    cases S with
    | nil => simp [List.isPrefixOf] at h
    | cons c S' =>
      simp only [List.cons_append, List.isPrefixOf, Bool.and_eq_true] at h
      simp only [List.isPrefixOf, Bool.and_eq_true]
      exact ⟨h.1, ih h.2⟩

theorem strStartsWith_append (p q : String) : strStartsWith p (p ++ q) = true := by
  simp only [strStartsWith, String.data_append]
  exact isPrefixOf_append_self p.data q.data

theorem strStartsWith_append_right {p s : String} (h : strStartsWith p s = true)
    (t : String) : strStartsWith p (s ++ t) = true := by
  simp only [strStartsWith, String.data_append] at *
  exact isPrefixOf_append_right h t.data

theorem strStartsWith_weaken {p q s : String}
    (h : strStartsWith (p ++ q) s = true) : strStartsWith p s = true := by
  simp only [strStartsWith, String.data_append] at *
  exact isPrefixOf_of_append_isPrefixOf h

theorem isPrefixOf_append_cons_ne {a b : Char} (hab : a ≠ b) :
    ∀ (P ta tb S : List Char), (P ++ a :: ta).isPrefixOf S = true →
      (P ++ b :: tb).isPrefixOf S = false := by
  intro P
  induction P with
  | nil =>
    intro ta tb S h1
    cases S with
    | nil => simp [List.isPrefixOf] at h1
    | cons c S' =>
      simp only [List.nil_append, List.isPrefixOf, Bool.and_eq_true,
        beq_iff_eq] at h1
      obtain ⟨rfl, -⟩ := h1
      have hb : (b == a) = false :=
        beq_eq_false_iff_ne.mpr (fun hba => hab hba.symm)
      simp [List.isPrefixOf, hb]
  | cons p P' ih =>
    intro ta tb S h1
    cases S with
    | nil => simp [List.isPrefixOf] at h1
    | cons c S' =>
      simp only [List.cons_append, List.isPrefixOf, Bool.and_eq_true,
        List.append_eq] at h1
      simp only [List.cons_append, List.isPrefixOf, List.append_eq]
      rw [ih ta tb S' h1.2]
      simp

theorem joinLines_startsWith {p : String} :
    ∀ l : List String, l ≠ [] → (∀ s ∈ l, strStartsWith p s = true) →
      strStartsWith p (joinLines l) = true := by
  intro l
  match l with
  | [] => intro h; exact absurd rfl h
  | [s] => intro _ hall; simpa [joinLines] using hall s (by simp)
  | s :: t :: rest =>
    intro _ hall
    show strStartsWith p (s ++ "\n" ++ joinLines (t :: rest)) = true
    have hs := hall s (by simp)
    exact strStartsWith_append_right (strStartsWith_append_right hs "\n") _

theorem genTreeGo_starts_with_pref (ps : PathSpec) (incl : List String) :
    ∀ (pref rel : String) (total i : Nat) (l : List FSEntry),
      ∀ s ∈ genTreeGo ps incl pref rel total i l, strStartsWith pref s = true := by
  intro pref rel total i l
  induction pref, rel, total, i, l using genTreeGo.induct ps incl with
  | case1 pref rel total i => intro s hs; simp [genTreeGo] at hs
  | case2 pref rel total i e rest ihe ihrest =>
    intro s hs
    cases e with
    | dir name cs =>
      simp only [genTreeGo] at hs
      rcases List.mem_append.mp hs with hmem | hmem
      case inr => exact ihrest s hmem
      by_cases hd : should_exclude_directory (joinRel rel name) ps = true
      case pos => simp [hd] at hmem
      by_cases hi : (i == total - 1) = true
      all_goals simp only [hd, hi, Bool.false_eq_true, if_false, if_true,
        eq_self_iff_true, dite_true, dite_false, not_false_iff] at hmem ihe
      case pos =>
        split at hmem
        · rcases List.mem_singleton.mp hmem with rfl
          exact strStartsWith_append_right (strStartsWith_append pref lastConn) name
        case isFalse hc =>
          rcases List.mem_cons.mp hmem with rfl | hmem2
          · exact strStartsWith_append_right (strStartsWith_append pref lastConn) name
          rcases List.mem_singleton.mp hmem2 with rfl
          have hne : genTreeGo ps incl (pref ++ spacePref) (joinRel rel name)
              (sortEntries cs).length 0 (sortEntries cs) ≠ [] := by
            intro h0
            rw [h0] at hc
            simp [joinLines] at hc
          exact strStartsWith_weaken (joinLines_startsWith _ hne ihe)
      case neg =>
        split at hmem
        · rcases List.mem_singleton.mp hmem with rfl
          exact strStartsWith_append_right (strStartsWith_append pref midConn) name
        case isFalse hc =>
          rcases List.mem_cons.mp hmem with rfl | hmem2
          · exact strStartsWith_append_right (strStartsWith_append pref midConn) name
          rcases List.mem_singleton.mp hmem2 with rfl
          have hne : genTreeGo ps incl (pref ++ contPref) (joinRel rel name)
              (sortEntries cs).length 0 (sortEntries cs) ≠ [] := by
            intro h0
            rw [h0] at hc
            simp [joinLines] at hc
          exact strStartsWith_weaken (joinLines_startsWith _ hne ihe)
    | file m =>
      simp only [genTreeGo] at hs
      rcases List.mem_append.mp hs with hmem | hmem
      case inr => exact ihrest s hmem
      by_cases he : should_exclude_file (joinRel rel m.name) m.bytes.length incl
          ps SYSMAXSIZE = true
      case pos => simp [he] at hmem
      simp only [he, Bool.false_eq_true, if_false] at hmem
      rcases List.mem_singleton.mp hmem with rfl
      exact strStartsWith_append_right
        (strStartsWith_append pref (if (i == total - 1) = true then lastConn else midConn)) m.name

def entryExcluded (ps : PathSpec) (incl : List String) (rel : String) : FSEntry → Bool
  | .dir name _ => should_exclude_directory (joinRel rel name) ps
  | .file m => should_exclude_file (joinRel rel m.name) m.bytes.length incl ps SYSMAXSIZE

theorem genTreeGo_last_excluded (ps : PathSpec) (incl : List String)
    (pref : String) :
    ∀ (l : List FSEntry) (rel : String) (total i : Nat),
      i + l.length = total →
      (∀ e2, l.getLast? = some e2 → entryExcluded ps incl rel e2 = true) →
      ∀ s ∈ genTreeGo ps incl pref rel total i l,
        strStartsWith (pref ++ midConn) s = true ∨
          strStartsWith (pref ++ contPref) s = true := by
  intro l
  induction l with
  | nil => intro rel total i _ _ s hs; simp [genTreeGo] at hs
  | cons e rest ih =>
    intro rel total i htot hlast s hs
    cases rest with
    | nil =>
      have hexcl := hlast e rfl
      cases e with
      | dir name cs =>
        simp only [entryExcluded] at hexcl
        simp [genTreeGo, hexcl] at hs
      | file m =>
        simp only [entryExcluded] at hexcl
        simp [genTreeGo, hexcl] at hs
    | cons r rs =>
      have hlast2 : ∀ e2, (r :: rs).getLast? = some e2 →
          entryExcluded ps incl rel e2 = true := by
        intro e2 he2
        exact hlast e2 (by rw [List.getLast?_cons_cons]; exact he2)
      have hi : (i == total - 1) = false := by
        have hlt : i + 1 < total := by
          simp only [List.length_cons] at htot
          omega
        simp only [beq_eq_false_iff_ne, ne_eq]
        omega
      have htot2 : (i + 1) + (r :: rs).length = total := by
        simp only [List.length_cons] at htot ⊢
        omega
      cases e with
      | dir name cs =>
        simp only [genTreeGo] at hs
        rcases List.mem_append.mp hs with hmem | hmem
        case inr => exact ih rel total (i + 1) htot2 hlast2 s hmem
        by_cases hd : should_exclude_directory (joinRel rel name) ps = true
        case pos => simp [hd] at hmem
        simp only [hd, hi, Bool.false_eq_true, if_false] at hmem
        split at hmem
        · rcases List.mem_singleton.mp hmem with rfl
          exact Or.inl (strStartsWith_append (pref ++ midConn) name)
        · rename_i hc
          rcases List.mem_cons.mp hmem with rfl | hmem2
          · exact Or.inl (strStartsWith_append (pref ++ midConn) name)
          rcases List.mem_singleton.mp hmem2 with rfl
          have hne : genTreeGo ps incl (pref ++ contPref) (joinRel rel name)
              (sortEntries cs).length 0 (sortEntries cs) ≠ [] := by
            intro h0
            rw [h0] at hc
            simp [joinLines] at hc
          exact Or.inr (joinLines_startsWith _ hne
            (genTreeGo_starts_with_pref ps incl (pref ++ contPref) (joinRel rel name)
              (sortEntries cs).length 0 (sortEntries cs)))
      | file m =>
        simp only [genTreeGo] at hs
        rcases List.mem_append.mp hs with hmem | hmem
        case inr => exact ih rel total (i + 1) htot2 hlast2 s hmem
        by_cases he : should_exclude_file (joinRel rel m.name) m.bytes.length incl
            ps SYSMAXSIZE = true
        case pos => simp [he] at hmem
        simp only [he, hi, Bool.false_eq_true, if_false] at hmem
        rcases List.mem_singleton.mp hmem with rfl
        exact Or.inl (strStartsWith_append (pref ++ midConn) m.name)

/-- Claim C10 (implicit): the last-entry connector under exclusion — the
renderer assigns `└── ` by raw index (`i == len(entries) - 1`), and an
excluded entry still consumes its index; so when the raw listing's last
entry is excluded, every rendered element of that directory either is an
entry line carrying the `├── ` connector or is a subtree block indented
with the `│   ` continuation (never four spaces), and no rendered element
starts with the `└── ` connector. -/
theorem claim_C10_last_connector (ps : PathSpec) (incl : List String)
    (pref rel : String) (children : List FSEntry) (e : FSEntry)
    (hlast : (sortEntries children).getLast? = some e)
    (hexcl : entryExcluded ps incl rel e = true) :
    ∀ s ∈ genTreeGo ps incl pref rel (sortEntries children).length 0
        (sortEntries children),
      (strStartsWith (pref ++ midConn) s = true ∨
          strStartsWith (pref ++ contPref) s = true) ∧
        strStartsWith (pref ++ lastConn) s = false := by
  intro s hs
  have hmain := genTreeGo_last_excluded ps incl pref (sortEntries children) rel
    (sortEntries children).length 0 (by simp)
    (fun e2 he2 => by
      rw [hlast] at he2
      obtain rfl := Option.some.inj he2
      exact hexcl) s hs
  refine ⟨hmain, ?_⟩
  have hmid : midConn.data = '├' :: ['─', '─', ' '] := by decide
  have hcont : contPref.data = '│' :: [' ', ' ', ' '] := by decide
  have hlastc : lastConn.data = '└' :: ['─', '─', ' '] := by decide
  show ((pref ++ lastConn).data).isPrefixOf s.data = false
  rw [String.data_append, hlastc]
  rcases hmain with h | h
  · have h' : (pref.data ++ '├' :: ['─', '─', ' ']).isPrefixOf s.data = true := by
      rw [← hmid, ← String.data_append]
      exact h
    exact isPrefixOf_append_cons_ne (by decide) pref.data _ _ s.data h'
  · have h' : (pref.data ++ '│' :: [' ', ' ', ' ']).isPrefixOf s.data = true := by
      rw [← hcont, ← String.data_append]
      exact h
    exact isPrefixOf_append_cons_ne (by decide) pref.data _ _ s.data h'

/-- Witness for C10: with rule `*.log`, the raw-last entry `z.log` of the
listing `[a.txt, z.log]` is excluded, so the rendered line for `a.txt`
carries `├── ` and not `└── `. -/
theorem claim_C10_witness :
    (strStartsWith ("" ++ midConn) "├── a.txt" = true ∨
        strStartsWith ("" ++ contPref) "├── a.txt" = true) ∧
      strStartsWith ("" ++ lastConn) "├── a.txt" = false :=
  claim_C10_last_connector (loadLines ["*.log"]) [] "" ""
    [.file ⟨"a.txt", []⟩, .file ⟨"z.log", []⟩] (.file ⟨"z.log", []⟩)
    (by rfl) (by decide) "├── a.txt"
    (by simp +decide [genTreeGo, sortEntries, joinLines, joinRel])

/-! ## Distinctness of collected paths -/

/-- `p` lies in the subtree named by `n`: it is `n` itself or strictly
below it. -/
def ExtOf (n p : String) : Prop := p = n ∨ ∃ t, p = n ++ "/" ++ t

theorem strData_inj {a b : String} (h : a.data = b.data) : a = b := by
  cases a; cases b; exact congrArg String.mk h

theorem noslash_sep_inj : ∀ (A B t u : List Char), '/' ∉ A → '/' ∉ B →
    A ++ '/' :: t = B ++ '/' :: u → A = B := by
  intro A
  induction A with
  | nil =>
    intro B t u _ hB h
    cases B with
    | nil => rfl
    | cons b B' =>
      simp only [List.nil_append, List.cons_append, List.cons.injEq] at h
      obtain ⟨h1, -⟩ := h
      subst h1
      exact absurd (List.mem_cons_self _ _) hB
  | cons a A' ih =>
    intro B t u hA hB h
    cases B with
    | nil =>
      simp only [List.cons_append, List.nil_append, List.cons.injEq] at h
      obtain ⟨h1, -⟩ := h
      subst h1
      exact absurd (List.mem_cons_self _ _) hA
    | cons b B' =>
      simp only [List.cons_append, List.cons.injEq] at h
      have hA' : '/' ∉ A' := fun hm => hA (List.mem_cons_of_mem a hm)
      have hB' : '/' ∉ B' := fun hm => hB (List.mem_cons_of_mem b hm)
      rw [h.1, ih B' t u hA' hB' h.2]

theorem charsExt_inj {A B P : List Char} (hA : '/' ∉ A) (hB : '/' ∉ B)
    (h1 : P = A ∨ ∃ t, P = A ++ '/' :: t)
    (h2 : P = B ∨ ∃ t, P = B ++ '/' :: t) : A = B := by
  rcases h1 with h1 | ⟨t, h1⟩
  · rcases h2 with h2 | ⟨u, h2⟩
    · rw [← h1, ← h2]
    · have hm : '/' ∈ A := by
        rw [← h1, h2]
        exact List.mem_append_right B (List.mem_cons_self _ _)
      exact absurd hm hA
  · rcases h2 with h2 | ⟨u, h2⟩
    · have hm : '/' ∈ B := by
        rw [← h2, h1]
        exact List.mem_append_right A (List.mem_cons_self _ _)
      exact absurd hm hB
    · exact noslash_sep_inj A B t u hA hB (h1.symm.trans h2)

theorem string_append_assoc (a b c : String) : a ++ b ++ c = a ++ (b ++ c) :=
  strData_inj (by simp [String.data_append, List.append_assoc])

theorem data_empty_iff {s : String} : s = "" ↔ s.data = [] := by
  constructor
  · intro h; rw [h]
  · intro h
    have hs : s = String.mk s.data := by cases s; rfl
    rw [hs, h]

theorem validName_ne_nil {s : String} (h : validName s = true) : s.data ≠ [] := by
  simp only [validName, Bool.and_eq_true, Bool.not_eq_true'] at h
  intro h0
  rw [← data_empty_iff] at h0
  simp [h0] at h

theorem validName_noslash {s : String} (h : validName s = true) : '/' ∉ s.data := by
  simp only [validName, Bool.and_eq_true, Bool.not_eq_true'] at h
  simpa using h.2

theorem joinRel_data_of_ne {rel name : String} (h : rel ≠ "") :
    (joinRel rel name).data = rel.data ++ '/' :: name.data := by
  have hb : (rel == "") = false := beq_eq_false_iff_ne.mpr h
  simp [joinRel, hb, String.data_append]

theorem joinRel_data_of_eq {name : String} :
    (joinRel "" name).data = name.data := by
  simp [joinRel]

theorem joinRel_ne_empty {rel name : String} (hv : validName name = true) :
    joinRel rel name ≠ "" := by
  intro h0
  rw [data_empty_iff] at h0
  by_cases hr : rel = ""
  · rw [hr, joinRel_data_of_eq] at h0
    exact validName_ne_nil hv h0
  · rw [joinRel_data_of_ne hr] at h0
    simp at h0

theorem ExtOf_data {n p : String} (h : ExtOf n p) :
    p.data = n.data ∨ ∃ t : List Char, p.data = n.data ++ '/' :: t := by
  rcases h with rfl | ⟨t, rfl⟩
  · exact Or.inl rfl
  · refine Or.inr ⟨t.data, ?_⟩
    simp [String.data_append]

theorem ExtOf_joinRel_inj {rel a b p : String}
    (hva : validName a = true) (hvb : validName b = true)
    (h1 : ExtOf (joinRel rel a) p) (h2 : ExtOf (joinRel rel b) p) : a = b := by
  have d1 := ExtOf_data h1
  have d2 := ExtOf_data h2
  by_cases hr : rel = ""
  · subst hr
    rw [joinRel_data_of_eq] at d1 d2
    exact strData_inj (charsExt_inj (validName_noslash hva) (validName_noslash hvb) d1 d2)
  · rw [joinRel_data_of_ne hr] at d1 d2
    -- both decompositions share the prefix rel.data ++ ['/']; cancel it
    have d1' : p.data = (rel.data ++ ['/']) ++ a.data ∨
        ∃ t, p.data = (rel.data ++ ['/']) ++ (a.data ++ '/' :: t) := by
      rcases d1 with d | ⟨t, d⟩
      · exact Or.inl (by simpa [List.append_assoc] using d)
      · exact Or.inr ⟨t, by simpa [List.append_assoc] using d⟩
    have d2' : p.data = (rel.data ++ ['/']) ++ b.data ∨
        ∃ t, p.data = (rel.data ++ ['/']) ++ (b.data ++ '/' :: t) := by
      rcases d2 with d | ⟨t, d⟩
      · exact Or.inl (by simpa [List.append_assoc] using d)
      · exact Or.inr ⟨t, by simpa [List.append_assoc] using d⟩
    -- fix the common suffix after the shared prefix
    obtain ⟨Q, hQ⟩ : ∃ Q, p.data = (rel.data ++ ['/']) ++ Q := by
      rcases d1' with d | ⟨t, d⟩
      · exact ⟨a.data, d⟩
      · exact ⟨a.data ++ '/' :: t, d⟩
    have e1 : Q = a.data ∨ ∃ t, Q = a.data ++ '/' :: t := by
      rcases d1' with d | ⟨t, d⟩
      · exact Or.inl (List.append_cancel_left (hQ ▸ d : (rel.data ++ ['/']) ++ Q = _).symm).symm
      · exact Or.inr ⟨t, (List.append_cancel_left (hQ ▸ d : (rel.data ++ ['/']) ++ Q = _).symm).symm⟩
    have e2 : Q = b.data ∨ ∃ t, Q = b.data ++ '/' :: t := by
      rcases d2' with d | ⟨t, d⟩
      · exact Or.inl (List.append_cancel_left (hQ ▸ d : (rel.data ++ ['/']) ++ Q = _).symm).symm
      · exact Or.inr ⟨t, (List.append_cancel_left (hQ ▸ d : (rel.data ++ ['/']) ++ Q = _).symm).symm⟩
    exact strData_inj (charsExt_inj (validName_noslash hva) (validName_noslash hvb) e1 e2)

theorem ExtOf_step {rel' xnm p : String} (hne : rel' ≠ "")
    (h : ExtOf (joinRel rel' xnm) p) : ExtOf rel' p := by
  have hb : (rel' == "") = false := beq_eq_false_iff_ne.mpr hne
  rcases h with rfl | ⟨t, rfl⟩
  · exact Or.inr ⟨xnm, by simp [joinRel, hb]⟩
  · exact Or.inr ⟨xnm ++ "/" ++ t, by
      simp [joinRel, hb, string_append_assoc]⟩

theorem wfAll_iff {l : List FSEntry} :
    wfAll l = true ↔ ∀ e ∈ l, wfEntry e = true := by
  induction l with
  | nil => simp [wfAll]
  | cons e rest ih => simp [wfAll, ih]

theorem namesNodupB_iff {l : List FSEntry} :
    namesNodupB l = true ↔ (l.map entryName).Nodup := by
  induction l with
  | nil => simp [namesNodupB]
  | cons e rest ih =>
    simp only [namesNodupB, Bool.and_eq_true, ih, List.map_cons,
      List.nodup_cons, Bool.not_eq_true']
    constructor
    · intro ⟨h1, h2⟩
      exact ⟨by simpa using h1, h2⟩
    · intro ⟨h1, h2⟩
      exact ⟨by simpa using h1, h2⟩

theorem wfAll_sortEntries {cs : List FSEntry} (h : wfAll cs = true) :
    wfAll (sortEntries cs) = true := by
  rw [wfAll_iff] at h ⊢
  intro e he
  exact h e ((List.perm_insertionSort entryRel cs).mem_iff.mp he)

theorem namesNodupB_sortEntries {cs : List FSEntry} (h : namesNodupB cs = true) :
    namesNodupB (sortEntries cs) = true := by
  rw [namesNodupB_iff] at h ⊢
  exact ((List.perm_insertionSort entryRel cs).map entryName).nodup_iff.mpr h

theorem wfEntry_dir_parts {name : String} {cs : List FSEntry}
    (h : wfEntry (.dir name cs) = true) :
    validName name = true ∧ namesNodupB cs = true ∧ wfAll cs = true := by
  simp only [wfEntry, Bool.and_eq_true] at h
  exact ⟨h.1.1, h.1.2, h.2⟩

theorem goTraverse_span (ps : PathSpec) (incl : List String) (maxKB : Nat) :
    ∀ (rel : String) (l : List FSEntry), wfAll l = true →
      ∀ c ∈ goTraverse ps incl maxKB rel l,
        ∃ e ∈ l, ExtOf (joinRel rel (entryName e)) c.relPath := by
  intro rel l
  induction rel, l using goTraverse.induct ps incl maxKB with
  | case1 rel => intro _ c hc; simp [goTraverse] at hc
  | case2 rel e rest ihe ihrest =>
    intro hwf c hc
    rw [wfAll, Bool.and_eq_true] at hwf
    cases e with
    | dir name cs =>
      have ihsub : wfAll (sortEntries cs) = true →
          ∀ c ∈ goTraverse ps incl maxKB (joinRel rel name) (sortEntries cs),
            ∃ x ∈ sortEntries cs,
              ExtOf (joinRel (joinRel rel name) (entryName x)) c.relPath := ihe
      simp only [goTraverse] at hc
      rcases List.mem_append.mp hc with hm | hm
      · by_cases hd : should_exclude_directory (joinRel rel name) ps = true
        · simp [hd] at hm
        · simp only [hd, Bool.false_eq_true, if_false] at hm
          obtain ⟨hvn, -, hwc⟩ := wfEntry_dir_parts hwf.1
          obtain ⟨x, -, hext⟩ := ihsub (wfAll_sortEntries hwc) c hm
          exact ⟨.dir name cs, List.mem_cons_self _ _,
            ExtOf_step (joinRel_ne_empty hvn) hext⟩
      · obtain ⟨e', he', hext⟩ := ihrest hwf.2 c hm
        exact ⟨e', List.mem_cons_of_mem _ he', hext⟩
    | file m =>
      simp only [goTraverse] at hc
      rcases List.mem_append.mp hc with hm | hm
      · by_cases he : should_exclude_file (joinRel rel m.name) m.bytes.length incl
            ps maxKB = true
        · simp [he] at hm
        · simp only [he, Bool.false_eq_true, if_false] at hm
          rcases List.mem_singleton.mp hm with rfl
          exact ⟨.file m, List.mem_cons_self _ _, Or.inl rfl⟩
      · obtain ⟨e', he', hext⟩ := ihrest hwf.2 c hm
        exact ⟨e', List.mem_cons_of_mem _ he', hext⟩

theorem entryName_valid_of_wf {e : FSEntry} (h : wfEntry e = true) :
    validName (entryName e) = true := by
  cases e with
  | file m => simpa [wfEntry, entryName] using h
  | dir n cs => exact (wfEntry_dir_parts h).1

theorem goTraverse_cons (ps : PathSpec) (incl : List String) (maxKB : Nat)
    (rel : String) (e : FSEntry) (rest : List FSEntry) :
    goTraverse ps incl maxKB rel (e :: rest) =
      goTraverse ps incl maxKB rel [e] ++ goTraverse ps incl maxKB rel rest := by
  cases e <;> simp [goTraverse]

theorem goTraverse_nodup (ps : PathSpec) (incl : List String) (maxKB : Nat) :
    ∀ (rel : String) (l : List FSEntry), namesNodupB l = true → wfAll l = true →
      ((goTraverse ps incl maxKB rel l).map (fun c => c.relPath)).Nodup := by
  intro rel l
  induction rel, l using goTraverse.induct ps incl maxKB with
  | case1 rel => intro _ _; simp [goTraverse]
  | case2 rel e rest ihe ihrest =>
    intro hnn hwf
    rw [namesNodupB, Bool.and_eq_true] at hnn
    rw [wfAll, Bool.and_eq_true] at hwf
    have hname : entryName e ∉ rest.map entryName := by
      have := hnn.1
      simp only [Bool.not_eq_true'] at this
      simpa using this
    have hwfe : wfAll [e] = true := by
      rw [wfAll_iff]
      intro x hx
      rw [List.mem_singleton.mp hx]
      exact hwf.1
    have hcontrib : ∀ c ∈ goTraverse ps incl maxKB rel [e],
        ExtOf (joinRel rel (entryName e)) c.relPath := by
      intro c hc
      obtain ⟨e', he', hext⟩ := goTraverse_span ps incl maxKB rel [e] hwfe c hc
      rw [List.mem_singleton.mp he'] at hext
      exact hext
    rw [goTraverse_cons, List.map_append]
    rw [List.nodup_append]
    refine ⟨?_, ihrest hnn.2 hwf.2, ?_⟩
    · -- the head's own contribution has pairwise-distinct paths
      cases e with
      | dir name cs =>
        obtain ⟨hvn, hncs, hwcs⟩ := wfEntry_dir_parts hwf.1
        by_cases hd : should_exclude_directory (joinRel rel name) ps = true
        · simp [goTraverse, hd]
        · simp only [goTraverse, hd, Bool.false_eq_true, if_false,
            List.append_nil]
          exact ihe (namesNodupB_sortEntries hncs) (wfAll_sortEntries hwcs)
      | file m =>
        by_cases he : should_exclude_file (joinRel rel m.name) m.bytes.length incl
            ps maxKB = true
        · simp [goTraverse, he]
        · simp [goTraverse, he]
    · -- the head's subtree paths and the siblings' paths are disjoint
      intro p hp1 hp2
      obtain ⟨c1, hc1, rfl⟩ := List.mem_map.mp hp1
      obtain ⟨c2, hc2, hpeq⟩ := List.mem_map.mp hp2
      have hext1 := hcontrib c1 hc1
      obtain ⟨e', he', hext2⟩ := goTraverse_span ps incl maxKB rel rest hwf.2 c2 hc2
      rw [hpeq] at hext2
      have hve : validName (entryName e) = true := entryName_valid_of_wf hwf.1
      have hve' : validName (entryName e') = true :=
        entryName_valid_of_wf (wfAll_iff.mp hwf.2 e' he')
      have hEq : entryName e = entryName e' :=
        ExtOf_joinRel_inj hve hve' hext1 hext2
      exact hname (hEq ▸ List.mem_map_of_mem entryName he')

/-! ## Determinism of the assembled artifact -/

/-- Strict key order on read results. -/
def resultKeyLT (x y : String × String) : Prop := strLT x.1 y.1 = true

instance : IsAntisymm (String × String) resultKeyLT where
  antisymm a b h1 h2 := by
    have h3 := strLT_asymm (a := a.1) (b := b.1) h1
    rw [resultKeyLT, h3] at h2
    exact absurd h2 Bool.false_ne_true

instance : IsTotal (String × String) resultLE where
  total a b := strLE_total a.1 b.1

instance : IsTrans (String × String) resultLE where
  trans _ _ _ h1 h2 := strLE_trans h1 h2

theorem sortByPath_perm (l : List (String × String)) : (sortByPath l).Perm l :=
  List.perm_insertionSort resultLE l

theorem sortByPath_sorted (l : List (String × String)) :
    List.Sorted resultLE (sortByPath l) :=
  List.sorted_insertionSort resultLE l

theorem sortByPath_sorted_strict {l : List (String × String)}
    (hnd : ((sortByPath l).map Prod.fst).Nodup) :
    List.Sorted resultKeyLT (sortByPath l) := by
  have hne : (sortByPath l).Pairwise (fun x y => x.1 ≠ y.1) :=
    List.pairwise_map.mp hnd
  exact List.Pairwise.imp
    (fun h => strLT_of_strLE_of_ne h.1 h.2)
    ((sortByPath_sorted l).and hne)

theorem sortByPath_eq_of_perm {r l₁ l₂ : List (String × String)}
    (h₁ : l₁.Perm r) (h₂ : l₂.Perm r) (hnd : (r.map Prod.fst).Nodup) :
    sortByPath l₁ = sortByPath l₂ := by
  have hp : (sortByPath l₁).Perm (sortByPath l₂) :=
    ((sortByPath_perm l₁).trans (h₁.trans h₂.symm)).trans (sortByPath_perm l₂).symm
  have hnd₁ : ((sortByPath l₁).map Prod.fst).Nodup :=
    (((sortByPath_perm l₁).trans h₁).map Prod.fst).nodup_iff.mpr hnd
  have hnd₂ : ((sortByPath l₂).map Prod.fst).Nodup :=
    (((sortByPath_perm l₂).trans h₂).map Prod.fst).nodup_iff.mpr hnd
  exact List.eq_of_perm_of_sorted hp (sortByPath_sorted_strict hnd₁)
    (sortByPath_sorted_strict hnd₂)

theorem readAll_keys (cands : List Candidate) :
    (readAll cands).map Prod.fst = cands.map (fun c => c.relPath) := by
  simp [readAll, List.map_map, Function.comp]

/-! ## Claim C1 -/

/-- Claim C1: determinism of the combined artifact — for a fixed root,
rule set, explicit-include set, size limit and file contents (any
well-formed filesystem), the final artifact is byte-identical across
runs: whatever order the concurrent reads complete in (any two
permutations `l₁`, `l₂` of the canonical result list — worker count only
influences which permutation occurs), the sort step restores one total
order, because the collected paths are pairwise distinct. -/
theorem claim_C1_determinism (rootDisplay : String) (fs : List FSEntry)
    (ps : PathSpec) (incl : List String) (maxKB : Nat)
    (l₁ l₂ : List (String × String)) (hwf : wfChildren fs = true)
    (h₁ : l₁.Perm (readAll (traverse_and_collect_files ps incl maxKB fs)))
    (h₂ : l₂.Perm (readAll (traverse_and_collect_files ps incl maxKB fs))) :
    finalArtifact rootDisplay (generate_tree_structure ps incl "" "" fs) l₁ =
      finalArtifact rootDisplay (generate_tree_structure ps incl "" "" fs) l₂ := by
  have hwc : namesNodupB fs = true ∧ wfAll fs = true := by
    simpa [wfChildren, Bool.and_eq_true] using hwf
  have hnd : ((readAll (traverse_and_collect_files ps incl maxKB fs)).map
      Prod.fst).Nodup := by
    rw [readAll_keys, traverse_and_collect_files]
    exact goTraverse_nodup ps incl maxKB "" (sortEntries fs)
      (namesNodupB_sortEntries hwc.1) (wfAll_sortEntries hwc.2)
  have hsort := sortByPath_eq_of_perm h₁ h₂ hnd
  simp only [finalArtifact, hsort]

/-- Witness for C1 at a concrete filesystem, with the canonical
completion order taken twice. -/
theorem claim_C1_witness :
    wfChildren [FSEntry.file ⟨"a.txt", [65]⟩] = true ∧
      finalArtifact "." (generate_tree_structure ⟨[]⟩ [] "" ""
          [FSEntry.file ⟨"a.txt", [65]⟩])
          (readAll (traverse_and_collect_files ⟨[]⟩ [] 10240
            [FSEntry.file ⟨"a.txt", [65]⟩])) =
        finalArtifact "." (generate_tree_structure ⟨[]⟩ [] "" ""
          [FSEntry.file ⟨"a.txt", [65]⟩])
          (readAll (traverse_and_collect_files ⟨[]⟩ [] 10240
            [FSEntry.file ⟨"a.txt", [65]⟩])) :=
  ⟨by decide, claim_C1_determinism "." [FSEntry.file ⟨"a.txt", [65]⟩] ⟨[]⟩ [] 10240
    _ _ (by decide) (List.Perm.refl _) (List.Perm.refl _)⟩

/-! ## Claim C2 -/

/-- Claim C2: block ordering — for any two read results `a`, `b` whose
path keys satisfy `a.1 < b.1` in the lexicographic string order, `a`
occupies a strictly earlier position than `b` in the sorted list whose
blocks the assembler concatenates (the combined output is
`String.join ((sortByPath l).map Prod.snd)` after the tree text), for
every completion order `l`. -/
theorem claim_C2_block_ordering (l : List (String × String))
    (a b : String × String) (ha : a ∈ l) (hb : b ∈ l)
    (hab : strLT a.1 b.1 = true) :
    ∃ i j : Fin (sortByPath l).length, (i : Nat) < (j : Nat) ∧
      (sortByPath l).get i = a ∧ (sortByPath l).get j = b := by
  have ha' : a ∈ sortByPath l := (sortByPath_perm l).mem_iff.mpr ha
  have hb' : b ∈ sortByPath l := (sortByPath_perm l).mem_iff.mpr hb
  obtain ⟨i, hi⟩ := List.get_of_mem ha'
  obtain ⟨j, hj⟩ := List.get_of_mem hb'
  refine ⟨i, j, ?_, hi, hj⟩
  rcases Nat.lt_trichotomy (i : Nat) (j : Nat) with h | h | h
  · exact h
  · exfalso
    have hij : i = j := Fin.ext h
    rw [hij, hj] at hi
    rw [hi] at hab
    simp [strLT, listLTN_irrefl] at hab
  · exfalso
    have hle : resultLE ((sortByPath l).get j) ((sortByPath l).get i) :=
      List.Sorted.rel_get_of_lt (sortByPath_sorted l) h
    rw [hi, hj] at hle
    have hle2 : strLE b.1 a.1 = true := hle
    rw [strLE] at hle2
    rcases (Bool.or_eq_true _ _).mp hle2 with hlt | heq
    · rw [strLT_asymm hab] at hlt
      exact Bool.false_ne_true hlt
    · have hbe : b.1 = a.1 := by simpa using heq
      rw [hbe] at hab
      simp [strLT, listLTN_irrefl] at hab

/-- Witness for C2: in `[("b", "B"), ("a", "A")]` the block keyed `"a"`
ends up strictly before the block keyed `"b"`. -/
theorem claim_C2_witness :
    ∃ i j : Fin (sortByPath [("b", "B"), ("a", "A")]).length,
      (i : Nat) < (j : Nat) ∧
        (sortByPath [("b", "B"), ("a", "A")]).get i = ("a", "A") ∧
        (sortByPath [("b", "B"), ("a", "A")]).get j = ("b", "B") :=
  claim_C2_block_ordering [("b", "B"), ("a", "A")] ("a", "A") ("b", "B")
    (by decide) (by decide) (by decide)
